import Mathlib

/-!
Verification development for the PDF structural-extraction engine
(`src/ingest.py` of the Document-QA repository).

The Python module is shallowly embedded: Python `str` is Lean `String`
(a structure holding a `List Char`, so string primitives such as
`str.strip`, `str.lower`, `str.join` are modelled as explicit functions
on the underlying character list); Python `float` values (font sizes,
numpy percentile arithmetic, the `0.3` repetition ratio) are modelled
as exact rationals `ℚ`; Python `//` and `int(...)` truncation on
non-negative values are `Nat` division / `Int.floor`; `try/except` is
`Except`; functions performing file or library I/O are modelled on the
data those collaborators return (e.g. `needs_ocr_check` receives the
per-page plain-text list that `fitz` would produce).
-/

namespace Ingest

/-- Model of Python `str.strip` on the character list: drop Unicode
whitespace (modelled by `Char.isWhitespace`) from both ends. -/
def stripChars (l : List Char) : List Char :=
  ((l.dropWhile Char.isWhitespace).reverse.dropWhile Char.isWhitespace).reverse

/-- Python `s.strip()`. -/
def pyStrip (s : String) : String := ⟨stripChars s.data⟩

/-- Python `s.lower()` (the marker strings compared against are ASCII,
for which `Char.toLower` agrees with Python). -/
def pyLower (s : String) : String := ⟨s.data.map Char.toLower⟩

/-- Python `sep.join(xs)`. -/
def pyJoin (sep : String) : List String → String
  | [] => ""
  | x :: xs => xs.foldl (fun acc y => acc ++ sep ++ y) x

/-- Python builtin `max(xs) if xs else None`. -/
def pyMax (xs : List ℚ) : Option ℚ :=
  match xs with
  | [] => none
  | x :: rest => some (rest.foldl max x)

/-- Python `(sum(xs) / len(xs)) if xs else None`. -/
def pyAvg (xs : List ℚ) : Option ℚ :=
  match xs with
  | [] => none
  | _ :: _ => some (xs.sum / xs.length)

/-- `sanitize_filename`: keep alphanumerics and `._-`, replace the rest
by `_`, truncate to 200 characters. -/
def sanitize_filename (name : String) : String :=
  ⟨(name.data.map (fun c =>
      if c.isAlphanum ∨ c = '.' ∨ c = '_' ∨ c = '-' then c else '_')).take 200⟩

/-- `pathlib.Path(p).stem` for a bare file name: the name without its
final extension (names without a dot are returned unchanged). -/
def pathStem (s : String) : String :=
  match s.data.reverse.dropWhile (fun c => c ≠ '.') with
  | [] => s
  | _ :: rest => ⟨rest.reverse⟩

/-! ## Data model

`Block` and `Page` are the dictionaries built by `extract_text_blocks`
(the `bbox` field is carried opaquely by the Python code and read by no
function verified here, so it is omitted). -/

structure Block where
  text : String
  fontSizes : List ℚ
  maxFontSize : Option ℚ
  avgFontSize : Option ℚ
  fonts : List String
deriving Repr, DecidableEq

structure Page where
  pageNumber : ℕ
  blocks : List Block
deriving Repr, DecidableEq

/-! ## Block Normalizer (`extract_text_blocks`)

The raw input is the `page.get_text("dict")` structure delivered by the
page-layout collaborator (PyMuPDF): blocks with a type tag and lines of
spans; `span.get("size", 0)` and `span.get("font", "")` default absent
keys, modelled by `Option`. -/

structure RawSpan where
  text : String
  size : Option ℚ
  font : Option String
deriving Repr, DecidableEq

structure RawLine where
  spans : List RawSpan
deriving Repr, DecidableEq

structure RawBlock where
  /-- the Python dict's `"type"` entry; text blocks have type 0 -/
  btype : ℤ
  lines : List RawLine
deriving Repr, DecidableEq

structure RawPage where
  blocks : List RawBlock
deriving Repr, DecidableEq

/-- All spans of a raw block, in reading order (the two nested Python
loops over `lines`/`spans`). -/
def spanList (b : RawBlock) : List RawSpan :=
  b.lines.foldr (fun l acc => l.spans ++ acc) []

/-- One iteration of the block loop of `extract_text_blocks`: skip
non-text blocks, concatenate span text, collect font sizes (missing
sizes default to 0) and distinct fonts, drop whitespace-only blocks. -/
def normalizeBlock (b : RawBlock) : Option Block :=
  if b.btype ≠ 0 then none
  else
    let spans := spanList b
    let blockText := String.join (spans.map (fun s => s.text))
    let fontSizes := spans.map (fun s => s.size.getD 0)
    let fonts := (spans.map (fun s => s.font.getD "")).dedup
    if pyStrip blockText = "" then none
    else some ⟨pyStrip blockText, fontSizes, pyMax fontSizes, pyAvg fontSizes, fonts⟩

/-- The page loop of `extract_text_blocks`, numbering pages `k+1, …`. -/
def extractPagesFrom (k : ℕ) : List RawPage → List Page
  | [] => []
  | rp :: rest => ⟨k + 1, rp.blocks.filterMap normalizeBlock⟩ :: extractPagesFrom (k + 1) rest

/-- `extract_text_blocks`: normalize every page, pages numbered from 1. -/
def extract_text_blocks (rawPages : List RawPage) : List Page :=
  extractPagesFrom 0 rawPages

/-! ## Header/Footer Repetition Detector -/

/-- The stream of counted phrases of `detect_repeated_headers`: for every
block (page by page), its stripped text when that stripped text is
shorter than 120 characters.  Each block occurrence contributes one
element (the Python `Counter` is incremented once per block). -/
def shortTexts : List Page → List String
  | [] => []
  | p :: ps =>
      p.blocks.filterMap (fun b =>
        if (pyStrip b.text).length < 120 then some (pyStrip b.text) else none) ++
        shortTexts ps

/-- The threshold `max(2, int(0.3 * len(pages_blocks)))`: for a natural
page count `N` the truncated float product `int(0.3 * N)` equals
`⌊3N/10⌋`, i.e. `3 * N / 10` in natural division (the float product
rounds to the exact value whenever `3N/10` is an integer, and truncation
elsewhere agrees with the rational floor). -/
def repeatThreshold (numPages : ℕ) : ℕ :=
  max 2 (3 * numPages / 10)

/-- `detect_repeated_headers`: the distinct counted phrases whose count
reaches the threshold (`Counter.items()` filtered; only membership in
the result is relevant downstream, so the key order of the Python
counter is not tracked). -/
def detect_repeated_headers (pages : List Page) : List String :=
  let texts := shortTexts pages
  texts.dedup.filter (fun t => repeatThreshold pages.length ≤ texts.count t)

/-- `remove_repeated_headers_from_blocks` (the Python version mutates the
page dicts in place; modelled functionally): drop every block whose
stripped text is in `repeated`. -/
def remove_repeated_headers_from_blocks (pages : List Page) (repeated : List String) :
    List Page :=
  if repeated.isEmpty then pages
  else pages.map (fun p => ⟨p.pageNumber, p.blocks.filter
    (fun b => !(repeated.contains (pyStrip b.text)))⟩)

/-! ## Scanned-Document Heuristic (`needs_ocr_check`)

The function is modelled on the list of per-page plain texts that
`doc[i].get_text("text")` returns. -/

/-- `needs_ocr_check`: sample the first `min(page_sample_count, page_count)`
pages, count those whose stripped text has fewer than 50 characters, and
flag when that count reaches `max(1, sample // 2)`. -/
def needs_ocr_check (pageTexts : List String) (pageSampleCount : ℕ := 3) : Bool :=
  let sample := min pageSampleCount pageTexts.length
  let emptyPages := (List.range sample).foldl
    (fun acc i => if (pyStrip (pageTexts.getD i "")).length < 50 then acc + 1 else acc) 0
  decide (max 1 (sample / 2) ≤ emptyPages)

/-! ## Batch Driver (`batch_process`)

`process_pdf` performs file I/O and is modelled as a parameter returning
either the fields of its output record that the driver reads (`doc_id`,
`filename`) or an error (the Python `try/except Exception`).  The sorted
directory glob is modelled as the given file-name list. -/

structure DocRecord where
  docId : String
  filename : String
deriving Repr, DecidableEq

structure ManifestEntry where
  docId : String
  filename : String
  jsonPath : String
deriving Repr, DecidableEq

/-- `batch_process`: fold over the PDF list, appending a manifest entry
for every file whose processing succeeds and skipping (after logging)
every file whose processing raises. -/
def batch_process (proc : String → Except String DocRecord)
    (outputDir : String) (pdfs : List String) : List ManifestEntry :=
  pdfs.foldl (fun manifest pdf =>
    match proc pdf with
    | Except.ok d =>
        manifest ++ [⟨d.docId, d.filename,
          outputDir ++ "/" ++ sanitize_filename (pathStem pdf) ++ ".json"⟩]
    | Except.error _ => manifest) []

/-! ## Heading & Section Segmenter (`detect_headings_and_sections`)

The `section_id` field is a fresh `uuid.uuid4()` per section — pure
nondeterministic identity, read by no verified property — and is
therefore omitted from the `Section` record. -/

structure Section where
  heading : String
  text : String
  startPage : Option ℕ
  endPage : Option ℕ
deriving Repr, DecidableEq

/-- The `all_font_sizes` collection loop: `b["max_font_size"]` is
appended when it is truthy (not `None` and not `0`). -/
def collectFontSizes : List Page → List ℚ
  | [] => []
  | p :: ps =>
      p.blocks.filterMap (fun b =>
        match b.maxFontSize with
        | none => none
        | some s => if s ≠ 0 then some s else none) ++ collectFontSizes ps

/-- Ascending insertion into a sorted list (nondecreasing, ties kept). -/
def insertSorted (x : ℚ) : List ℚ → List ℚ
  | [] => [x]
  | y :: ys => if x ≤ y then x :: y :: ys else y :: insertSorted x ys

/-- Ascending sort, as numpy sorts the sample before interpolating. -/
def sortRat (xs : List ℚ) : List ℚ := xs.foldr insertSorted []

/-- `numpy.percentile(xs, 90)` with the default linear interpolation:
virtual index `h = (n-1)·90/100`, result `x⌊h⌋ + (h-⌊h⌋)·(x⌊h⌋₊₁ - x⌊h⌋)`
over the ascending sort (float arithmetic modelled exactly in `ℚ`). -/
def percentile90 (xs : List ℚ) : ℚ :=
  let s := sortRat xs
  let n := s.length
  let h : ℚ := (n - 1 : ℚ) * 90 / 100
  let i : ℕ := Int.toNat ⌊h⌋
  let lo := s.getD i 0
  let hi := s.getD (i + 1) lo
  lo + (h - (i : ℚ)) * (hi - lo)

/-- The Python heading test `b.get("max_font_size") and
b["max_font_size"] >= threshold` (truthiness: `None` and `0` fail). -/
def isHeadingBlock (T : ℚ) (b : Block) : Bool :=
  match b.maxFontSize with
  | none => false
  | some s => decide (s ≠ 0) && decide (T ≤ s)

/-- The `current` accumulator dict of the segmentation loop. -/
structure CurState where
  heading : Option String
  text : String
  startPage : Option ℕ
  endPage : Option ℕ
deriving Repr, DecidableEq

def initCur : CurState := ⟨none, "", none, none⟩

/-- Python truthiness of `current["heading"] or current["text"]`. -/
def curTruthy (c : CurState) : Bool :=
  (match c.heading with
   | none => false
   | some h => decide (h ≠ "")) || decide (c.text ≠ "")

/-- Finalizing `current` into a section dict: `heading or dflt`,
stripped accumulated text. -/
def mkSection (c : CurState) (dflt : String) : Section :=
  ⟨(match c.heading with
    | none => dflt
    | some h => if h = "" then dflt else h),
   pyStrip c.text, c.startPage, c.endPage⟩

/-- The flattened `(page_number, block)` stream of the two nested
segmentation loops. -/
def flattenBlocks : List Page → List (ℕ × Block)
  | [] => []
  | p :: ps => p.blocks.map (fun b => (p.pageNumber, b)) ++ flattenBlocks ps

/-- One iteration of the segmentation loop: a heading block finalizes
the current accumulation (default heading `"Untitled"`) and opens a new
one; any other block extends the accumulation's text and page range. -/
def segStep (T : ℚ) (st : List Section × CurState) (pb : ℕ × Block) :
    List Section × CurState :=
  if isHeadingBlock T pb.2 then
    ((if curTruthy st.2 then st.1 ++ [mkSection st.2 "Untitled"] else st.1),
     ⟨some (pyStrip pb.2.text), "", some pb.1, some pb.1⟩)
  else
    (st.1,
     ⟨st.2.heading,
      st.2.text ++ ("\n\n" ++ pyStrip pb.2.text),
      (match st.2.startPage with
       | none => some pb.1
       | some s => some s),
      some pb.1⟩)

/-- `detect_headings_and_sections`: with no truthy font size anywhere,
fall back to one section per page; otherwise stream the blocks through
`segStep` against the 90th-percentile threshold and push the last
accumulation (default heading `"Introduction"`). -/
def detect_headings_and_sections (pages : List Page) : List Section :=
  if collectFontSizes pages = [] then
    pages.map (fun p =>
      ⟨"Page " ++ toString p.pageNumber,
       pyJoin "\n\n" (p.blocks.map (fun b => b.text)),
       some p.pageNumber, some p.pageNumber⟩)
  else
    let T := percentile90 (collectFontSizes pages)
    let r := (flattenBlocks pages).foldl (segStep T) ([], initCur)
    if curTruthy r.2 then r.1 ++ [mkSection r.2 "Introduction"] else r.1

/-! ### Traced segmenter

The same algorithm, additionally carrying the position (in the flattened
block stream) of every block a section consumes — its heading block and
the blocks appended to its text.  This instruments block consumption so
that the coverage invariant (each surviving block belongs to exactly one
section) is expressible; erasing the trace recovers
`detect_headings_and_sections` exactly (proved below). -/

structure TSection where
  heading : String
  text : String
  startPage : Option ℕ
  endPage : Option ℕ
  consumed : List ℕ
deriving Repr, DecidableEq

structure TCur where
  heading : Option String
  text : String
  startPage : Option ℕ
  endPage : Option ℕ
  consumed : List ℕ
deriving Repr, DecidableEq

def tInitCur : TCur := ⟨none, "", none, none, []⟩

def tCurTruthy (c : TCur) : Bool :=
  (match c.heading with
   | none => false
   | some h => decide (h ≠ "")) || decide (c.text ≠ "")

def tMkSection (c : TCur) (dflt : String) : TSection :=
  ⟨(match c.heading with
    | none => dflt
    | some h => if h = "" then dflt else h),
   pyStrip c.text, c.startPage, c.endPage, c.consumed⟩

/-- Forgetting the trace of a section. -/
def tErase (s : TSection) : Section := ⟨s.heading, s.text, s.startPage, s.endPage⟩

/-- Forgetting the trace of the accumulator. -/
def tEraseCur (c : TCur) : CurState := ⟨c.heading, c.text, c.startPage, c.endPage⟩

/-- The flattened block stream tagged with positions `k, k+1, …`:
`(position, page_number, block)`. -/
def flattenBlocksIdxFrom (k : ℕ) : List Page → List (ℕ × ℕ × Block)
  | [] => []
  | p :: ps =>
      (p.blocks.enum.map (fun jb => (k + jb.1, p.pageNumber, jb.2))) ++
        flattenBlocksIdxFrom (k + p.blocks.length) ps

/-- `segStep` carrying consumed positions. -/
def tSegStep (T : ℚ) (st : List TSection × TCur) (pb : ℕ × ℕ × Block) :
    List TSection × TCur :=
  if isHeadingBlock T pb.2.2 then
    ((if tCurTruthy st.2 then st.1 ++ [tMkSection st.2 "Untitled"] else st.1),
     ⟨some (pyStrip pb.2.2.text), "", some pb.2.1, some pb.2.1, [pb.1]⟩)
  else
    (st.1,
     ⟨st.2.heading,
      st.2.text ++ ("\n\n" ++ pyStrip pb.2.2.text),
      (match st.2.startPage with
       | none => some pb.2.1
       | some s => some s),
      some pb.2.1,
      st.2.consumed ++ [pb.1]⟩)

/-- Traced fallback: the page-`n` section consumes exactly page `n`'s
blocks. -/
def tracedFallback (k : ℕ) : List Page → List TSection
  | [] => []
  | p :: ps =>
      ⟨"Page " ++ toString p.pageNumber,
       pyJoin "\n\n" (p.blocks.map (fun b => b.text)),
       some p.pageNumber, some p.pageNumber,
       (List.range p.blocks.length).map (fun j => k + j)⟩ :: tracedFallback (k + p.blocks.length) ps

/-- Traced `detect_headings_and_sections`. -/
def detectSectionsTraced (pages : List Page) : List TSection :=
  if collectFontSizes pages = [] then tracedFallback 0 pages
  else
    let T := percentile90 (collectFontSizes pages)
    let r := (flattenBlocksIdxFrom 0 pages).foldl (tSegStep T) ([], tInitCur)
    if tCurTruthy r.2 then r.1 ++ [tMkSection r.2 "Introduction"] else r.1

/-! ## Reference Locator (`find_references`) -/

/-- The marker tuple `("references", "reference", "bibliography",
"works cited")`. -/
def refMarkers : List String := ["references", "reference", "bibliography", "works cited"]

/-- One iteration of the `find_references` scan over blocks: the first
marker block (matched case-insensitively on stripped text) flips the
flag and is skipped; once the flag is set every stripped block text is
collected.  (The Python loop's `if found and page["blocks"] == []:
continue` arm ends an iteration that performs no further work, so it is
behaviourally a no-op and the nested loops are a fold over the flattened
block stream.) -/
def refStep (st : Bool × List String) (pb : ℕ × Block) : Bool × List String :=
  let t := pyStrip pb.2.text
  if st.1 = false ∧ pyLower t ∈ refMarkers then (true, st.2)
  else if st.1 then (st.1, st.2 ++ [t]) else st

/-- `find_references`: blank-line join of everything after the first
marker block, finally stripped. -/
def find_references (pages : List Page) : String :=
  let r := (flattenBlocks pages).foldl refStep (false, [])
  pyStrip (pyJoin "\n\n" r.2)

/-- The Reference Locator as the claim words it: the blank-line join of
the texts of all blocks strictly after the first marker block, the
marker excluded, and `""` when no marker exists. -/
def referencesSpec : List String → String
  | [] => ""
  | t :: ts =>
      if pyLower (pyStrip t) ∈ refMarkers then pyJoin "\n\n" ts else referencesSpec ts

/-! ## Concrete documents used by the claim theorems -/

/-- A block carrying only text (no font metadata), as produced for
spans without size/font information filtered through the normalizer. -/
def textBlock (t : String) : Block := ⟨t, [], none, none, []⟩

/-- A block whose single span has font size `s`. -/
def sizedBlock (t : String) (s : ℚ) : Block := ⟨t, [s], some s, some s, []⟩

/-- A 60-character page text (well above the 50-character cutoff). -/
def longText : String := ⟨List.replicate 60 'a'⟩

/-- Six page texts of which exactly the first is near-empty. -/
def sixPagesOneEmpty : List String :=
  ["short", longText, longText, longText, longText, longText]

/-- Seven pages; the short string `"hdr"` appears on pages 1 and 2 only. -/
def sevenPagesTwoHdr : List Page :=
  [⟨1, [textBlock "hdr"]⟩, ⟨2, [textBlock "hdr"]⟩,
   ⟨3, [textBlock "body3"]⟩, ⟨4, [textBlock "body4"]⟩, ⟨5, [textBlock "body5"]⟩,
   ⟨6, [textBlock "body6"]⟩, ⟨7, [textBlock "body7"]⟩]

/-- A single page carrying the same short string in two blocks. -/
def onePageDoubled : List Page := [⟨1, [textBlock "x", textBlock "x"]⟩]

/-- A raw text block whose only span has no size information. -/
def rawNoSize : RawBlock := ⟨0, [⟨[⟨"hi", none, none⟩]⟩]⟩

/-- A raw text block whose only span carries size 12 and font `"F"`. -/
def rawSized : RawBlock := ⟨0, [⟨[⟨"Hello", some 12, some "F"⟩]⟩]⟩

/-- One page of five blocks with font sizes `[10,10,10,10,24]`. -/
def fiveBlockPages : List Page :=
  [⟨1, [sizedBlock "a" 10, sizedBlock "b" 10, sizedBlock "c" 10,
        sizedBlock "d" 10, sizedBlock "Title" 24]⟩]

/-- A processing function for which exactly the middle of three files
raises. -/
def corruptMiddleProc : String → Except String DocRecord := fun f =>
  if f = "b.pdf" then Except.error "corrupt" else Except.ok ⟨"id-" ++ f, f⟩

/-! ## Helper lemmas -/

/-- The counting loop of `needs_ocr_check` counts the near-empty pages
among the sampled prefix. -/
lemma foldl_count_range (l : List String) :
    ∀ n, n ≤ l.length →
      (List.range n).foldl
        (fun acc i => if (pyStrip (l.getD i "")).length < 50 then acc + 1 else acc) 0
        = ((l.take n).filter (fun t => decide ((pyStrip t).length < 50))).length := by
  intro n
  induction n with
  | zero => intro _; simp
  | succ m ih =>
    intro hn
    rw [List.range_succ, List.foldl_append, ih (Nat.le_of_succ_le hn)]
    have hm : m < l.length := hn
    have hgd : l.getD m "" = l[m] := by
      rw [List.getD_eq_getElem?_getD, List.getElem?_eq_getElem hm]; rfl
    have htake : l.take (m + 1) = l.take m ++ [l[m]] := by
      rw [List.take_succ, List.getElem?_eq_getElem hm]; rfl
    rw [htake]
    simp only [List.foldl_cons, List.foldl_nil, List.filter_append, List.length_append, hgd]
    by_cases hpb : (pyStrip l[m]).length < 50
    · simp [hpb]
    · simp [hpb]

/-- `batch_process` with any accumulator collects the successful files. -/
lemma batch_foldl_eq (proc : String → Except String DocRecord) (outputDir : String) :
    ∀ (pdfs : List String) (acc : List ManifestEntry),
      pdfs.foldl (fun manifest pdf =>
        match proc pdf with
        | Except.ok d =>
            manifest ++ [⟨d.docId, d.filename,
              outputDir ++ "/" ++ sanitize_filename (pathStem pdf) ++ ".json"⟩]
        | Except.error _ => manifest) acc
      = acc ++ pdfs.filterMap (fun pdf =>
          match proc pdf with
          | Except.ok d =>
              some ⟨d.docId, d.filename,
                outputDir ++ "/" ++ sanitize_filename (pathStem pdf) ++ ".json"⟩
          | Except.error _ => none) := by
  intro pdfs
  induction pdfs with
  | nil => intro acc; simp
  | cons f fs ih =>
    intro acc
    cases hf : proc f with
    | ok d => simp [List.foldl_cons, hf, ih, List.filterMap_cons]
    | error e => simp [List.foldl_cons, hf, ih, List.filterMap_cons]

/-- Every counted phrase is short and the count is positive exactly on
phrases that occur. -/
lemma mem_of_count_pos {t : String} {pages : List Page}
    (h : 0 < (shortTexts pages).count t) : t ∈ shortTexts pages :=
  List.count_pos_iff.mp h

/-- `collectFontSizes` is empty on documents with no font metadata. -/
lemma collectFontSizes_eq_nil {pages : List Page}
    (h : ∀ p ∈ pages, ∀ b ∈ p.blocks, b.maxFontSize = none) :
    collectFontSizes pages = [] := by
  induction pages with
  | nil => rfl
  | cons p ps ih =>
    simp only [collectFontSizes, List.append_eq_nil]
    refine ⟨List.filterMap_eq_nil_iff.mpr ?_, ih ?_⟩
    · intro b hb
      rw [h p (List.mem_cons_self p ps) b hb]
    · intro q hq b hb
      exact h q (List.mem_cons_of_mem p hq) b hb

/-- The per-page contribution of a phrase to the repetition counter. -/
def pageOccurrences (t : String) (p : Page) : ℕ :=
  (p.blocks.filterMap (fun b =>
    if (pyStrip b.text).length < 120 then some (pyStrip b.text) else none)).count t

/-! ## String lemmas for the Reference Locator -/

lemma data_append (a b : String) : (a ++ b).data = a.data ++ b.data := by
  cases a; cases b; rfl

lemma string_ne_empty_iff (s : String) : s ≠ "" ↔ s.data ≠ [] := by
  constructor
  · intro h hd
    exact h (by cases s; cases hd; rfl)
  · intro h hs
    exact h (by cases hs; rfl)

lemma pyStrip_data (s : String) : (pyStrip s).data = stripChars s.data := rfl

/-- A list whose first and last characters are not whitespace strips to
itself. -/
lemma stripChars_eq_self {l : List Char}
    (h1 : ∀ c ∈ l.head?, c.isWhitespace = false)
    (h2 : ∀ c ∈ l.getLast?, c.isWhitespace = false) :
    stripChars l = l := by
  cases l with
  | nil => rfl
  | cons a as =>
    have ha : a.isWhitespace = false := h1 a rfl
    unfold stripChars
    rw [List.dropWhile_cons, if_neg (by simp [ha])]
    have hne : (a :: as).reverse ≠ [] := by simp
    obtain ⟨b, bs, hb⟩ := List.exists_cons_of_ne_nil hne
    have hlast : (a :: as).getLast? = some b := by
      rw [← List.head?_reverse, hb]; rfl
    have hbws : b.isWhitespace = false := h2 b (by rw [hlast]; rfl)
    rw [hb, List.dropWhile_cons, if_neg (by simp [hbws]), ← hb, List.reverse_reverse]

/-- A nonempty self-stripped list starts with a non-whitespace
character. -/
lemma head_not_ws_of_strip {l : List Char} (h : stripChars l = l) :
    ∀ c ∈ l.head?, c.isWhitespace = false := by
  cases l with
  | nil => intro c hc; cases hc
  | cons a as =>
    intro c hc
    have hca : c = a := by cases hc; rfl
    subst hca
    by_contra hws
    have hws' : c.isWhitespace = true := by
      cases hcw : c.isWhitespace
      · exact absurd hcw hws
      · rfl
    have hlen : (stripChars (c :: as)).length ≤ as.length := by
      unfold stripChars
      rw [List.dropWhile_cons, if_pos (by simp [hws'])]
      calc ((as.dropWhile Char.isWhitespace).reverse.dropWhile Char.isWhitespace).reverse.length
          = ((as.dropWhile Char.isWhitespace).reverse.dropWhile Char.isWhitespace).length := by
            simp
        _ ≤ (as.dropWhile Char.isWhitespace).reverse.length :=
            (List.dropWhile_sublist _).length_le
        _ = (as.dropWhile Char.isWhitespace).length := by simp
        _ ≤ as.length := (List.dropWhile_sublist _).length_le
    rw [h] at hlen
    simp at hlen

/-- A nonempty self-stripped list ends with a non-whitespace character. -/
lemma last_not_ws_of_strip {l : List Char} (h : stripChars l = l) (hne : l ≠ []) :
    ∀ c ∈ l.getLast?, c.isWhitespace = false := by
  intro c hc
  by_contra hws
  have hws' : c.isWhitespace = true := by
    cases hcw : c.isWhitespace
    · exact absurd hcw hws
    · rfl
  set r := l.dropWhile Char.isWhitespace with hr
  have hrne : r ≠ [] := by
    intro hnil
    have : stripChars l = [] := by
      unfold stripChars
      rw [← hr, hnil]; rfl
    rw [h] at this
    exact hne this
  have hsplit : l.takeWhile Char.isWhitespace ++ r = l := by
    rw [hr]; exact List.takeWhile_append_dropWhile _ _
  have hlastr : r.getLast? = some c := by
    have h1 : l.getLast? = some c := hc
    calc r.getLast? = (l.takeWhile Char.isWhitespace ++ r).getLast? :=
          (List.getLast?_append_of_ne_nil _ hrne).symm
      _ = some c := by rw [hsplit]; exact h1
  have hrev : r.reverse.head? = some c := by rw [List.head?_reverse]; exact hlastr
  obtain ⟨b, bs, hb⟩ := List.exists_cons_of_ne_nil (by simp [hrne] : r.reverse ≠ [])
  have hbc : b = c := by rw [hb] at hrev; cases hrev; rfl
  subst hbc
  have hlen : (stripChars l).length < l.length := by
    unfold stripChars
    rw [← hr, hb, List.dropWhile_cons, if_pos (by simp [hws'])]
    have h1 : (bs.dropWhile Char.isWhitespace).length ≤ bs.length :=
      (List.dropWhile_sublist _).length_le
    have h2 : bs.length < r.length := by
      have : r.reverse.length = bs.length + 1 := by rw [hb]; simp
      rw [List.length_reverse] at this
      omega
    have h3 : r.length ≤ l.length := by
      rw [hr]; exact (List.dropWhile_sublist _).length_le
    rw [List.length_reverse]
    omega
  rw [h] at hlen
  omega

/-- A trimmed nonempty string is a fixed point of `pyStrip`. -/
lemma pyStrip_fix {s : String} (h1 : ∀ c ∈ s.data.head?, c.isWhitespace = false)
    (h2 : ∀ c ∈ s.data.getLast?, c.isWhitespace = false) : pyStrip s = s := by
  show (⟨stripChars s.data⟩ : String) = s
  rw [stripChars_eq_self h1 h2]

/-- The fold of the joining function prepends its accumulator's
characters. -/
lemma pyJoin_foldl_data (sep : String) :
    ∀ (rest : List String) (a : String), ∃ s,
      (rest.foldl (fun acc y => acc ++ sep ++ y) a).data = a.data ++ s := by
  intro rest
  induction rest with
  | nil => intro a; exact ⟨[], by simp⟩
  | cons y ys ih =>
    intro a
    obtain ⟨s, hs⟩ := ih (a ++ sep ++ y)
    refine ⟨sep.data ++ y.data ++ s, ?_⟩
    rw [List.foldl_cons, hs, data_append, data_append]
    simp

/-- The fold of the joining function ends with the characters of the
last joined string. -/
lemma pyJoin_foldl_last_data (sep : String) :
    ∀ (rest : List String) (a : String), rest ≠ [] →
      ∃ s last, rest.getLast? = some last ∧
        (rest.foldl (fun acc y => acc ++ sep ++ y) a).data = s ++ last.data := by
  intro rest
  induction rest with
  | nil => intro a h; exact absurd rfl h
  | cons y ys ih =>
    intro a _
    cases ys with
    | nil =>
      refine ⟨(a ++ sep).data, y, rfl, ?_⟩
      rw [List.foldl_cons, List.foldl_nil, data_append]
    | cons z zs =>
      obtain ⟨s, last, hl, hd⟩ := ih (a ++ sep ++ y) (List.cons_ne_nil z zs)
      refine ⟨s, last, ?_, ?_⟩
      · rw [List.getLast?_cons_cons]
        exact hl
      · rw [List.foldl_cons]
        exact hd

/-- Joining trimmed nonempty strings with a blank line yields a string
that strips to itself. -/
lemma pyStrip_pyJoin (ts : List String)
    (h : ∀ t ∈ ts, pyStrip t = t ∧ t ≠ "") :
    pyStrip (pyJoin "\n\n" ts) = pyJoin "\n\n" ts := by
  cases ts with
  | nil => rfl
  | cons t rest =>
    obtain ⟨htrim, hne⟩ := h t (List.mem_cons_self t rest)
    have htdata : stripChars t.data = t.data := congrArg String.data htrim
    have htne : t.data ≠ [] := (string_ne_empty_iff t).mp hne
    apply pyStrip_fix
    · -- head: the join starts with the characters of `t`
      obtain ⟨s, hs⟩ := pyJoin_foldl_data "\n\n" rest t
      show ∀ c ∈ (pyJoin "\n\n" (t :: rest)).data.head?, c.isWhitespace = false
      have hj : (pyJoin "\n\n" (t :: rest)).data = t.data ++ s := hs
      rw [hj]
      obtain ⟨c0, cs, hc0⟩ := List.exists_cons_of_ne_nil htne
      rw [hc0]
      intro c hcmem
      have : c = c0 := by cases hcmem; rfl
      subst this
      exact head_not_ws_of_strip htdata c (by rw [hc0]; rfl)
    · -- last: the join ends with the characters of the last element
      cases rest with
      | nil =>
        intro c hc
        exact last_not_ws_of_strip htdata htne c hc
      | cons z zs =>
        obtain ⟨s, last, hl, hd⟩ :=
          pyJoin_foldl_last_data "\n\n" (z :: zs) t (List.cons_ne_nil z zs)
        have hlast_mem : last ∈ z :: zs := by
          obtain ⟨hne0, heq0⟩ := List.mem_getLast?_eq_getLast hl
          rw [heq0]
          exact List.getLast_mem hne0
        obtain ⟨hltrim, hlne⟩ := h last (List.mem_cons_of_mem t hlast_mem)
        have hldata : stripChars last.data = last.data := congrArg String.data hltrim
        have hlne' : last.data ≠ [] := (string_ne_empty_iff last).mp hlne
        intro c hc
        have hj : (pyJoin "\n\n" (t :: z :: zs)).data = s ++ last.data := hd
        rw [hj] at hc
        rw [List.getLast?_append_of_ne_nil _ hlne'] at hc
        exact last_not_ws_of_strip hldata hlne' c hc

/-- Every element of the flattened block stream comes from some page. -/
lemma mem_flattenBlocks {pb : ℕ × Block} {pages : List Page}
    (h : pb ∈ flattenBlocks pages) : ∃ p ∈ pages, pb.2 ∈ p.blocks := by
  induction pages with
  | nil => cases h
  | cons p ps ih =>
    rcases List.mem_append.mp h with h1 | h2
    · obtain ⟨b, hb, heq⟩ := List.mem_map.mp h1
      exact ⟨p, List.mem_cons_self p ps, by rw [← heq]; exact hb⟩
    · obtain ⟨q, hq, hbq⟩ := ih h2
      exact ⟨q, List.mem_cons_of_mem p hq, hbq⟩

/-- Once the marker has been seen, the scan collects every remaining
stripped block text. -/
lemma refStep_found (l : List (ℕ × Block)) :
    ∀ acc, l.foldl refStep (true, acc)
      = (true, acc ++ l.map (fun pb => pyStrip pb.2.text)) := by
  induction l with
  | nil => intro acc; simp
  | cons pb rest ih =>
    intro acc
    rw [List.foldl_cons]
    have hstep : refStep (true, acc) pb = (true, acc ++ [pyStrip pb.2.text]) := by
      simp [refStep]
    rw [hstep, ih]
    simp

/-- The reference scan over a trimmed block stream computes the
claim-side `referencesSpec` of the block texts. -/
lemma refScan_eq_spec (l : List (ℕ × Block))
    (h : ∀ pb ∈ l, pyStrip pb.2.text = pb.2.text ∧ pb.2.text ≠ "") :
    pyStrip (pyJoin "\n\n" (l.foldl refStep (false, [])).2)
      = referencesSpec (l.map (fun pb => pb.2.text)) := by
  induction l with
  | nil => rfl
  | cons pb rest ih =>
    obtain ⟨htrim, hne⟩ := h pb (List.mem_cons_self pb rest)
    rw [List.foldl_cons, List.map_cons]
    by_cases hm : pyLower (pyStrip pb.2.text) ∈ refMarkers
    · have hstep : refStep (false, []) pb = (true, []) := by
        simp [refStep, hm]
      rw [hstep, refStep_found]
      rw [List.nil_append]
      have hmap : rest.map (fun x => pyStrip x.2.text) = rest.map (fun x => x.2.text) :=
        List.map_congr_left (fun x hx => (h x (List.mem_cons_of_mem pb hx)).1)
      rw [hmap]
      show pyStrip (pyJoin "\n\n" (rest.map (fun x => x.2.text)))
        = referencesSpec (pb.2.text :: rest.map (fun x => x.2.text))
      rw [referencesSpec, if_pos hm]
      apply pyStrip_pyJoin
      intro t ht
      obtain ⟨x, hx, hxt⟩ := List.mem_map.mp ht
      rw [← hxt]
      exact h x (List.mem_cons_of_mem pb hx)
    · have hstep : refStep (false, []) pb = (false, []) := by
        simp [refStep, hm]
      rw [hstep, ih (fun x hx => h x (List.mem_cons_of_mem pb hx))]
      show referencesSpec (rest.map (fun x => x.2.text))
        = referencesSpec (pb.2.text :: rest.map (fun x => x.2.text))
      rw [referencesSpec, if_neg hm]

/-! ## Lemmas for the section segmenter -/

/-- The positions of the blocks consumed by a list of traced sections,
in order. -/
def secsConsumed (secs : List TSection) : List ℕ :=
  (secs.map (fun s => s.consumed)).flatten

/-- The page-range invariant of a traced section. -/
def SOKt (s : TSection) : Prop :=
  ∃ a e, s.startPage = some a ∧ s.endPage = some e ∧ a ≤ e

/-- The loop invariant on the accumulator: it is untouched, or it is
truthy with a well-formed page range bounded by every remaining page
number. -/
def COKt (cur : TCur) (l : List (ℕ × ℕ × Block)) : Prop :=
  cur = tInitCur ∨
    (tCurTruthy cur = true ∧ ∃ a e, cur.startPage = some a ∧ cur.endPage = some e ∧
      a ≤ e ∧ ∀ x ∈ l, e ≤ x.2.1)

lemma secsConsumed_append (s1 s2 : List TSection) :
    secsConsumed (s1 ++ s2) = secsConsumed s1 ++ secsConsumed s2 := by
  unfold secsConsumed
  rw [List.map_append, List.flatten_append]

lemma secsConsumed_singleton (s : TSection) :
    secsConsumed [s] = s.consumed := by
  unfold secsConsumed
  simp

lemma pairwise_of_total {α : Type} {R : α → α → Prop} (h : ∀ a b, R a b) :
    ∀ l : List α, l.Pairwise R := by
  intro l
  induction l with
  | nil => exact List.Pairwise.nil
  | cons a as ih => exact List.Pairwise.cons (fun b _ => h a b) ih

/-- Erasing the trace from the traced fold gives the plain fold. -/
lemma tseg_erase (T : ℚ) :
    ∀ (l : List (ℕ × ℕ × Block)) (secs : List TSection) (cur : TCur),
      ((l.map (fun x => (x.2.1, x.2.2))).foldl (segStep T) (secs.map tErase, tEraseCur cur)).1
          = ((l.foldl (tSegStep T) (secs, cur)).1).map tErase ∧
      ((l.map (fun x => (x.2.1, x.2.2))).foldl (segStep T) (secs.map tErase, tEraseCur cur)).2
          = tEraseCur ((l.foldl (tSegStep T) (secs, cur)).2) := by
  intro l
  induction l with
  | nil => intro secs cur; exact ⟨rfl, rfl⟩
  | cons x xs ih =>
    intro secs cur
    rw [List.map_cons, List.foldl_cons, List.foldl_cons]
    have hstep : segStep T (secs.map tErase, tEraseCur cur) (x.2.1, x.2.2)
        = ((tSegStep T (secs, cur) x).1.map tErase,
           tEraseCur (tSegStep T (secs, cur) x).2) := by
      unfold segStep tSegStep
      by_cases hh : isHeadingBlock T x.2.2 = true
      · rw [if_pos hh, if_pos hh]
        have hceq : curTruthy (tEraseCur cur) = tCurTruthy cur := rfl
        by_cases ht : tCurTruthy cur = true
        · rw [hceq, if_pos ht, if_pos ht]
          simp [tErase, tEraseCur, tMkSection, mkSection]
        · rw [hceq, if_neg ht, if_neg ht]
          rfl
      · rw [if_neg hh, if_neg hh]
        rfl
    rw [hstep]
    exact ih (tSegStep T (secs, cur) x).1 (tSegStep T (secs, cur) x).2

/-- The traced fallback erases to the plain fallback. -/
lemma tracedFallback_erase :
    ∀ (k : ℕ) (pages : List Page),
      (tracedFallback k pages).map tErase
        = pages.map (fun p =>
            (⟨"Page " ++ toString p.pageNumber,
              pyJoin "\n\n" (p.blocks.map (fun b => b.text)),
              some p.pageNumber, some p.pageNumber⟩ : Section)) := by
  intro k pages
  induction pages generalizing k with
  | nil => rfl
  | cons p ps ih =>
    rw [tracedFallback, List.map_cons, List.map_cons, ih]
    rfl

/-- The traced fallback consumes exactly the positions
`k, …, k + #blocks - 1` in order. -/
lemma tracedFallback_consumed :
    ∀ (k : ℕ) (pages : List Page),
      secsConsumed (tracedFallback k pages)
        = List.range' k (flattenBlocks pages).length := by
  intro k pages
  induction pages generalizing k with
  | nil => rfl
  | cons p ps ih =>
    rw [tracedFallback]
    show secsConsumed (_ :: _) = _
    unfold secsConsumed
    rw [List.map_cons, List.flatten_cons]
    show (List.range p.blocks.length).map (fun j => k + j) ++ secsConsumed (tracedFallback (k + p.blocks.length) ps) = _
    rw [ih]
    have h1 : (List.range p.blocks.length).map (fun j => k + j)
        = List.range' k p.blocks.length := by
      rw [List.range'_eq_map_range]
    have h2 : (flattenBlocks (p :: ps)).length
        = (flattenBlocks ps).length + p.blocks.length := by
      simp [flattenBlocks, Nat.add_comm]
    rw [h1, h2, ← List.range'_append_1]

/-- Every traced fallback section has a degenerate page range. -/
lemma tracedFallback_SOKt :
    ∀ (k : ℕ) (pages : List Page), ∀ s ∈ tracedFallback k pages, SOKt s := by
  intro k pages
  induction pages generalizing k with
  | nil => intro s hs; cases hs
  | cons p ps ih =>
    intro s hs
    rw [tracedFallback] at hs
    rcases List.mem_cons.mp hs with heq | hmem
    · exact ⟨p.pageNumber, p.pageNumber, by rw [heq], by rw [heq], le_refl _⟩
    · exact ih (k + p.blocks.length) s hmem

/-- Forgetting the positions in the indexed stream recovers the plain
flattened stream. -/
lemma flattenIdx_map_pair :
    ∀ (k : ℕ) (pages : List Page),
      (flattenBlocksIdxFrom k pages).map (fun x => (x.2.1, x.2.2))
        = flattenBlocks pages := by
  intro k pages
  induction pages generalizing k with
  | nil => rfl
  | cons p ps ih =>
    rw [flattenBlocksIdxFrom, flattenBlocks, List.map_append, ih, List.map_map]
    congr 1
    have hcomp : ((fun x : ℕ × ℕ × Block => (x.2.1, x.2.2)) ∘
        (fun jb : ℕ × Block => (k + jb.1, p.pageNumber, jb.2)))
        = fun jb : ℕ × Block => (p.pageNumber, jb.2) := rfl
    rw [hcomp]
    have hcomp2 : (fun jb : ℕ × Block => (p.pageNumber, jb.2))
        = (fun b : Block => (p.pageNumber, b)) ∘ Prod.snd := rfl
    rw [hcomp2, ← List.map_map, List.enum_map_snd]

/-- The positions of the indexed stream are `k, k+1, …` in order. -/
lemma flattenIdx_map_fst :
    ∀ (k : ℕ) (pages : List Page),
      (flattenBlocksIdxFrom k pages).map (fun x => x.1)
        = List.range' k (flattenBlocks pages).length := by
  intro k pages
  induction pages generalizing k with
  | nil => rfl
  | cons p ps ih =>
    rw [flattenBlocksIdxFrom, List.map_append, ih, List.map_map]
    have hcomp : ((fun x : ℕ × ℕ × Block => x.1) ∘
        (fun jb : ℕ × Block => (k + jb.1, p.pageNumber, jb.2)))
        = (fun j : ℕ => k + j) ∘ Prod.fst := rfl
    rw [hcomp, ← List.map_map, List.enum_map_fst, ← List.range'_eq_map_range]
    have h2 : (flattenBlocks (p :: ps)).length
        = (flattenBlocks ps).length + p.blocks.length := by
      simp [flattenBlocks, Nat.add_comm]
    rw [h2, ← List.range'_append_1]

/-- Every element of the indexed stream carries the page number and a
block of one of the pages. -/
lemma mem_flattenIdx {x : ℕ × ℕ × Block} :
    ∀ {k : ℕ} {pages : List Page}, x ∈ flattenBlocksIdxFrom k pages →
      ∃ p ∈ pages, x.2.1 = p.pageNumber ∧ x.2.2 ∈ p.blocks := by
  intro k pages
  induction pages generalizing k with
  | nil => intro h; cases h
  | cons p ps ih =>
    intro h
    rcases List.mem_append.mp h with h1 | h2
    · obtain ⟨jb, hjb, heq⟩ := List.mem_map.mp h1
      refine ⟨p, List.mem_cons_self p ps, ?_, ?_⟩
      · rw [← heq]
      · rw [← heq]
        show jb.2 ∈ p.blocks
        have : jb.2 ∈ p.blocks.enum.map Prod.snd := List.mem_map_of_mem Prod.snd hjb
        rwa [List.enum_map_snd] at this
    · obtain ⟨q, hq, hx⟩ := ih h2
      exact ⟨q, List.mem_cons_of_mem p hq, hx⟩

/-- Nondecreasing page numbers lift to the indexed block stream. -/
lemma pairwise_flattenIdx :
    ∀ (k : ℕ) {pages : List Page},
      List.Pairwise (· ≤ ·) (pages.map Page.pageNumber) →
      List.Pairwise (fun x y : ℕ × ℕ × Block => x.2.1 ≤ y.2.1)
        (flattenBlocksIdxFrom k pages) := by
  intro k pages
  induction pages generalizing k with
  | nil => intro _; exact List.Pairwise.nil
  | cons p ps ih =>
    intro hsort
    rw [List.map_cons, List.pairwise_cons] at hsort
    obtain ⟨hhead, htail⟩ := hsort
    rw [flattenBlocksIdxFrom]
    rw [List.pairwise_append]
    refine ⟨?_, ih (k + p.blocks.length) htail, ?_⟩
    · apply List.pairwise_map.mpr
      apply pairwise_of_total
      intro a b
      exact le_refl p.pageNumber
    · intro a ha b hb
      obtain ⟨jb, _, heqa⟩ := List.mem_map.mp ha
      obtain ⟨q, hq, hqb, _⟩ := mem_flattenIdx hb
      have h1 : a.2.1 = p.pageNumber := by rw [← heqa]
      rw [h1, hqb]
      exact hhead q.pageNumber (List.mem_map_of_mem Page.pageNumber hq)

/-- The main fold invariant of the traced segmentation loop: every
emitted section has a well-formed page range, and the consumed positions
are exactly the processed stream positions, in order. -/
lemma tseg_loop (T : ℚ) :
    ∀ (l : List (ℕ × ℕ × Block)) (secs : List TSection) (cur : TCur) (done : List ℕ),
      List.Pairwise (fun x y : ℕ × ℕ × Block => x.2.1 ≤ y.2.1) l →
      (∀ x ∈ l, pyStrip x.2.2.text ≠ "") →
      (∀ s ∈ secs, SOKt s) →
      secsConsumed secs ++ cur.consumed = done →
      COKt cur l →
      (∀ s ∈ (l.foldl (tSegStep T) (secs, cur)).1, SOKt s) ∧
      secsConsumed (l.foldl (tSegStep T) (secs, cur)).1
          ++ (l.foldl (tSegStep T) (secs, cur)).2.consumed
        = done ++ l.map (fun x => x.1) ∧
      COKt (l.foldl (tSegStep T) (secs, cur)).2 [] := by
  intro l
  induction l with
  | nil =>
    intro secs cur done _ _ hs hc hk
    refine ⟨hs, by simpa using hc, ?_⟩
    rcases hk with h1 | ⟨h1, a, e, h3, h4, h5, _⟩
    · exact Or.inl h1
    · exact Or.inr ⟨h1, a, e, h3, h4, h5, fun x hx => absurd hx (List.not_mem_nil x)⟩
  | cons x xs ih =>
    intro secs cur done hsort htext hs hc hk
    rw [List.foldl_cons]
    obtain ⟨hbound, hsort2⟩ := List.pairwise_cons.mp hsort
    have htext2 : ∀ y ∈ xs, pyStrip y.2.2.text ≠ "" :=
      fun y hy => htext y (List.mem_cons_of_mem x hy)
    have htx : pyStrip x.2.2.text ≠ "" := htext x (List.mem_cons_self x xs)
    by_cases hh : isHeadingBlock T x.2.2 = true
    · -- heading block: finalize the accumulator, open a fresh one
      have hstep : tSegStep T (secs, cur) x
          = ((if tCurTruthy cur = true then secs ++ [tMkSection cur "Untitled"] else secs),
             ⟨some (pyStrip x.2.2.text), "", some x.2.1, some x.2.1, [x.1]⟩) := by
        unfold tSegStep
        rw [if_pos hh]
      rw [hstep]
      have hct1 : tCurTruthy
          (⟨some (pyStrip x.2.2.text), "", some x.2.1, some x.2.1, [x.1]⟩ : TCur) = true := by
        simp [tCurTruthy, htx]
      have hk1 : COKt
          (⟨some (pyStrip x.2.2.text), "", some x.2.1, some x.2.1, [x.1]⟩ : TCur) xs :=
        Or.inr ⟨hct1, x.2.1, x.2.1, rfl, rfl, le_refl _, fun y hy => hbound y hy⟩
      by_cases ht : tCurTruthy cur = true
      · rw [if_pos ht]
        rcases hk with hEq | ⟨_, a, e, hsp, hep, hae, _⟩
        · rw [hEq] at ht
          exact absurd ht (by decide)
        have hs1 : ∀ s ∈ secs ++ [tMkSection cur "Untitled"], SOKt s := by
          intro s hsm
          rcases List.mem_append.mp hsm with h1 | h2
          · exact hs s h1
          · have heqs : s = tMkSection cur "Untitled" := by
              cases h2 with
              | head => rfl
              | tail _ hcontra => cases hcontra
            rw [heqs]
            exact ⟨a, e, hsp, hep, hae⟩
        have hc1 : secsConsumed (secs ++ [tMkSection cur "Untitled"])
            ++ (⟨some (pyStrip x.2.2.text), "", some x.2.1, some x.2.1, [x.1]⟩ : TCur).consumed
            = done ++ [x.1] := by
          rw [secsConsumed_append, secsConsumed_singleton]
          show (secsConsumed secs ++ cur.consumed) ++ [x.1] = done ++ [x.1]
          rw [hc]
        obtain ⟨r1, r2, r3⟩ :=
          ih (secs ++ [tMkSection cur "Untitled"]) _ (done ++ [x.1]) hsort2 htext2 hs1 hc1 hk1
        refine ⟨r1, ?_, r3⟩
        rw [r2, List.map_cons]
        simp
      · rw [if_neg ht]
        have hcnil : cur.consumed = [] := by
          rcases hk with hEq | ⟨htr, _⟩
          · rw [hEq]
            rfl
          · exact absurd htr ht
        have hc1 : secsConsumed secs
            ++ (⟨some (pyStrip x.2.2.text), "", some x.2.1, some x.2.1, [x.1]⟩ : TCur).consumed
            = done ++ [x.1] := by
          show secsConsumed secs ++ [x.1] = done ++ [x.1]
          rw [← hc, hcnil, List.append_nil]
        obtain ⟨r1, r2, r3⟩ := ih secs _ (done ++ [x.1]) hsort2 htext2 hs hc1 hk1
        refine ⟨r1, ?_, r3⟩
        rw [r2, List.map_cons]
        simp
    · -- body block: extend the accumulator
      have hstep : tSegStep T (secs, cur) x
          = (secs, ⟨cur.heading, cur.text ++ ("\n\n" ++ pyStrip x.2.2.text),
              (match cur.startPage with
               | none => some x.2.1
               | some s => some s),
              some x.2.1, cur.consumed ++ [x.1]⟩) := by
        unfold tSegStep
        rw [if_neg hh]
      rw [hstep]
      have htne : cur.text ++ ("\n\n" ++ pyStrip x.2.2.text) ≠ "" := by
        rw [string_ne_empty_iff, data_append]
        have hd : ("\n\n" ++ pyStrip x.2.2.text).data
            = '\n' :: '\n' :: (pyStrip x.2.2.text).data := by
          rw [data_append]
          rfl
        rw [hd]
        simp
      have hct2 : tCurTruthy (⟨cur.heading, cur.text ++ ("\n\n" ++ pyStrip x.2.2.text),
          (match cur.startPage with
           | none => some x.2.1
           | some s => some s),
          some x.2.1, cur.consumed ++ [x.1]⟩ : TCur) = true := by
        simp [tCurTruthy, htne]
      have hk2 : COKt (⟨cur.heading, cur.text ++ ("\n\n" ++ pyStrip x.2.2.text),
          (match cur.startPage with
           | none => some x.2.1
           | some s => some s),
          some x.2.1, cur.consumed ++ [x.1]⟩ : TCur) xs := by
        refine Or.inr ⟨hct2, ?_⟩
        cases hspc : cur.startPage with
        | none =>
          exact ⟨x.2.1, x.2.1, rfl, rfl, le_refl _, fun y hy => hbound y hy⟩
        | some a =>
          have hax : a ≤ x.2.1 := by
            rcases hk with hEq | ⟨_, a0, e0, hsp0, hep0, hae0, hb0⟩
            · rw [hEq] at hspc
              cases hspc
            · have ha0 : a0 = a := by
                rw [hspc] at hsp0
                cases hsp0
                rfl
              have he0 : e0 ≤ x.2.1 := hb0 x (List.mem_cons_self x xs)
              omega
          exact ⟨a, x.2.1, rfl, rfl, hax, fun y hy => hbound y hy⟩
      have hc2 : secsConsumed secs ++ (cur.consumed ++ [x.1]) = done ++ [x.1] := by
        rw [← List.append_assoc, hc]
      obtain ⟨r1, r2, r3⟩ := ih secs _ (done ++ [x.1]) hsort2 htext2 hs hc2 hk2
      refine ⟨r1, ?_, r3⟩
      rw [r2, List.map_cons]
      simp

/-! ## Claim theorems -/

/-- C10: on a zero-page document the sample is empty, the empty-page
count is 0, and `needs_ocr_check` returns `false` because 0 never
reaches the minimum threshold `max(1, 0) = 1`. -/
theorem claim_C10 : needs_ocr_check [] = false := by decide

/-- C1 (amended): `needs_ocr_check` samples the first
`min(3, page_count)` pages, counts a page as empty when its stripped
extracted text is shorter than 50 characters, and flags exactly when the
empty count reaches `max(1, sample // 2)` with `//` the truncating
division; since `max(1, 3 // 2) = 1`, a 6-page document with exactly 1
near-empty page among the first 3 yields `needs_ocr = true` (not
`false` as the claim's example states). -/
theorem claim_C1 :
    (∀ pageTexts : List String,
      (needs_ocr_check pageTexts = true ↔
        max 1 (min 3 pageTexts.length / 2) ≤
          ((pageTexts.take (min 3 pageTexts.length)).filter
            (fun t => decide ((pyStrip t).length < 50))).length)) ∧
    ((sixPagesOneEmpty.take 3).filter
      (fun t => decide ((pyStrip t).length < 50))).length = 1 ∧
    needs_ocr_check sixPagesOneEmpty = true := by
  refine ⟨?_, by decide, by decide⟩
  intro texts
  simp only [needs_ocr_check]
  rw [foldl_count_range texts (min 3 texts.length) (min_le_right 3 texts.length)]
  simp

/-- C1 counterexample: the 6-page document `sixPagesOneEmpty` has
exactly 1 near-empty page among its first 3, yet `needs_ocr_check`
returns `true`, refuting the claim's assertion that it is `false`. -/
theorem claim_C1_counterexample :
    sixPagesOneEmpty.length = 6 ∧
    ((sixPagesOneEmpty.take 3).filter
      (fun t => decide ((pyStrip t).length < 50))).length = 1 ∧
    needs_ocr_check sixPagesOneEmpty = true := by decide

/-- C2 (amended): a short block text is detected as repeated, and hence
removed from every page, exactly when its block-occurrence count reaches
`max(2, int(0.3 × total_pages))` — the Python `int(...)` truncates, so
the threshold is the floor (not the ceiling) of `0.3 × N`. -/
theorem claim_C2 (pages : List Page) (t : String) :
    (t ∈ detect_repeated_headers pages ↔
      repeatThreshold pages.length ≤ (shortTexts pages).count t) ∧
    remove_repeated_headers_from_blocks pages (detect_repeated_headers pages)
      = pages.map (fun p => ⟨p.pageNumber, p.blocks.filter
          (fun b => !((detect_repeated_headers pages).contains (pyStrip b.text)))⟩) := by
  constructor
  · unfold detect_repeated_headers
    simp only [List.mem_filter, List.mem_dedup, decide_eq_true_eq]
    constructor
    · rintro ⟨-, h⟩; exact h
    · intro h
      refine ⟨mem_of_count_pos ?_, h⟩
      have h2 : 2 ≤ repeatThreshold pages.length := le_max_left _ _
      omega
  · unfold remove_repeated_headers_from_blocks
    by_cases hr : (detect_repeated_headers pages).isEmpty
    · rw [if_pos hr]
      have hnil : detect_repeated_headers pages = [] := by
        simpa [List.isEmpty_iff] using hr
      rw [hnil]
      have hmap : ∀ ps : List Page,
          ps.map (fun p => (⟨p.pageNumber, p.blocks.filter
            (fun b => !(([] : List String).contains (pyStrip b.text)))⟩ : Page)) = ps := by
        intro ps
        induction ps with
        | nil => rfl
        | cons q qs ih =>
          simp only [List.map_cons, ih, List.cons.injEq, and_true]
          have : q.blocks.filter
              (fun b => !(([] : List String).contains (pyStrip b.text))) = q.blocks := by
            simp [List.contains]
          rw [this]
      rw [hmap]
    · rw [if_neg hr]

/-- C2 counterexample: in the 7-page document `sevenPagesTwoHdr` the
string `"hdr"` occurs on exactly 2 pages, fewer than
`⌈0.3 × 7⌉ = 3`, yet the code detects it as repeated and removes it
from every page — the claim says it must be retained. -/
theorem claim_C2_counterexample :
    (sevenPagesTwoHdr.filter
      (fun p => p.blocks.any (fun b => decide (pyStrip b.text = "hdr")))).length = 2 ∧
    ⌈(3 / 10 : ℚ) * 7⌉ = 3 ∧ (2 : ℕ) < 3 ∧
    "hdr" ∈ detect_repeated_headers sevenPagesTwoHdr ∧
    ∀ p ∈ remove_repeated_headers_from_blocks sevenPagesTwoHdr
        (detect_repeated_headers sevenPagesTwoHdr),
      ∀ b ∈ p.blocks, pyStrip b.text ≠ "hdr" := by
  refine ⟨by decide, ?_, by decide, by decide, by decide⟩
  rw [show (3 / 10 : ℚ) * 7 = 21 / 10 by norm_num]
  rw [Int.ceil_eq_iff]
  constructor <;> norm_num

/-- C3 (amended): the repetition counter counts each short block
occurrence individually (the `Counter` is incremented once per block,
not once per distinct page): the total count of a phrase is the sum
over pages of the number of its matching short blocks on that page. -/
theorem claim_C3 (pages : List Page) (t : String) :
    (shortTexts pages).count t = (pages.map (pageOccurrences t)).sum ∧
    ∀ p : Page, pageOccurrences t p =
      (p.blocks.filter (fun b =>
        decide (pyStrip b.text = t) && decide ((pyStrip b.text).length < 120))).length := by
  constructor
  · induction pages with
    | nil => rfl
    | cons p ps ih =>
      simp only [shortTexts, List.count_append, List.map_cons, List.sum_cons, ih,
        pageOccurrences]
  · intro p
    show (p.blocks.filterMap (fun b =>
        if (pyStrip b.text).length < 120 then some (pyStrip b.text) else none)).count t
      = (p.blocks.filter (fun b =>
        decide (pyStrip b.text = t) && decide ((pyStrip b.text).length < 120))).length
    induction p.blocks with
    | nil => rfl
    | cons b bs ih =>
      by_cases h120 : (pyStrip b.text).length < 120
      · by_cases heq : pyStrip b.text = t
        · have h120i : t.length < 120 := heq ▸ h120
          simp [List.filterMap_cons, List.filter_cons, heq, h120i, List.count_cons, ih]
        · simp [List.filterMap_cons, List.filter_cons, h120, heq, List.count_cons, ih]
      · simp [List.filterMap_cons, List.filter_cons, h120, ih]

/-- C3 counterexample: on the one-page document `onePageDoubled` the
short string `"x"` occupies two blocks of the same page; the code counts
it twice, reaching the threshold 2 and flagging it repeated, although it
occurs on exactly 1 distinct page and the claim's per-page count 1 is
below the threshold. -/
theorem claim_C3_counterexample :
    "x" ∈ detect_repeated_headers onePageDoubled ∧
    (onePageDoubled.filter
      (fun p => p.blocks.any (fun b => decide (pyStrip b.text = "x")))).length = 1 ∧
    ¬(repeatThreshold onePageDoubled.length ≤ 1) := by decide

/-- C4: every section produced by `detect_headings_and_sections` has
`start_page ≤ end_page` (both set), and the produced sections consume
the filtered block stream exactly: the traced run of the same algorithm
(erasing its trace recovers `detect_headings_and_sections`, third
conjunct) consumes each stream position exactly once, in order (second
conjunct).  Hypotheses are the pipeline invariants: page numbers
nondecreasing in reading order, and every surviving block text non-empty
after stripping. -/
theorem claim_C4 (pages : List Page)
    (hsort : List.Pairwise (· ≤ ·) (pages.map Page.pageNumber))
    (htext : ∀ p ∈ pages, ∀ b ∈ p.blocks, pyStrip b.text ≠ "") :
    (∀ s ∈ detect_headings_and_sections pages,
      ∃ a e, s.startPage = some a ∧ s.endPage = some e ∧ a ≤ e) ∧
    secsConsumed (detectSectionsTraced pages)
      = List.range (flattenBlocks pages).length ∧
    (detectSectionsTraced pages).map tErase = detect_headings_and_sections pages := by
  by_cases hf : collectFontSizes pages = []
  · -- fallback branch: one section per page
    have h3 : (detectSectionsTraced pages).map tErase
        = detect_headings_and_sections pages := by
      unfold detectSectionsTraced detect_headings_and_sections
      rw [if_pos hf, if_pos hf]
      exact tracedFallback_erase 0 pages
    refine ⟨?_, ?_, h3⟩
    · intro s hsm
      unfold detect_headings_and_sections at hsm
      rw [if_pos hf] at hsm
      obtain ⟨p, hp, heq⟩ := List.mem_map.mp hsm
      exact ⟨p.pageNumber, p.pageNumber, by rw [← heq], by rw [← heq], le_refl _⟩
    · unfold detectSectionsTraced
      rw [if_pos hf, tracedFallback_consumed, List.range_eq_range']
  · -- main branch
    have hsortl := pairwise_flattenIdx 0 hsort
    have htextl : ∀ x ∈ flattenBlocksIdxFrom 0 pages, pyStrip x.2.2.text ≠ "" := by
      intro x hx
      obtain ⟨p, hp, _, hb⟩ := mem_flattenIdx hx
      exact htext p hp x.2.2 hb
    obtain ⟨hSOK, hcons, hk⟩ :=
      tseg_loop (percentile90 (collectFontSizes pages)) (flattenBlocksIdxFrom 0 pages)
        [] tInitCur [] hsortl htextl
        (fun s hs => absurd hs (List.not_mem_nil s)) rfl (Or.inl rfl)
    set r := (flattenBlocksIdxFrom 0 pages).foldl
      (tSegStep (percentile90 (collectFontSizes pages))) ([], tInitCur) with hrdef
    have htraced : detectSectionsTraced pages
        = if tCurTruthy r.2 = true then r.1 ++ [tMkSection r.2 "Introduction"] else r.1 := by
      rw [detectSectionsTraced, if_neg hf]
    have herase := tseg_erase (percentile90 (collectFontSizes pages))
      (flattenBlocksIdxFrom 0 pages) [] tInitCur
    rw [flattenIdx_map_pair 0 pages] at herase
    have he1 : ((flattenBlocks pages).foldl
        (segStep (percentile90 (collectFontSizes pages))) ([], initCur)).1
        = r.1.map tErase := herase.1
    have he2 : ((flattenBlocks pages).foldl
        (segStep (percentile90 (collectFontSizes pages))) ([], initCur)).2
        = tEraseCur r.2 := herase.2
    have hplain : detect_headings_and_sections pages
        = if curTruthy (tEraseCur r.2) = true
          then (r.1.map tErase) ++ [mkSection (tEraseCur r.2) "Introduction"]
          else r.1.map tErase := by
      rw [detect_headings_and_sections, if_neg hf]
      show (if curTruthy ((flattenBlocks pages).foldl
          (segStep (percentile90 (collectFontSizes pages))) ([], initCur)).2 = true
        then ((flattenBlocks pages).foldl
            (segStep (percentile90 (collectFontSizes pages))) ([], initCur)).1
          ++ [mkSection ((flattenBlocks pages).foldl
              (segStep (percentile90 (collectFontSizes pages))) ([], initCur)).2
              "Introduction"]
        else ((flattenBlocks pages).foldl
            (segStep (percentile90 (collectFontSizes pages))) ([], initCur)).1) = _
      rw [he1, he2]
    have h3main : (detectSectionsTraced pages).map tErase
        = detect_headings_and_sections pages := by
      rw [htraced, hplain]
      by_cases htr : tCurTruthy r.2 = true
      · have htr2 : curTruthy (tEraseCur r.2) = true := htr
        rw [if_pos htr, if_pos htr2, List.map_append]
        rfl
      · have htr2 : ¬curTruthy (tEraseCur r.2) = true := htr
        rw [if_neg htr, if_neg htr2]
    have hall : ∀ ts ∈ detectSectionsTraced pages, SOKt ts := by
      rw [htraced]
      by_cases htr : tCurTruthy r.2 = true
      · rw [if_pos htr]
        intro ts hts
        rcases List.mem_append.mp hts with h1 | h2
        · exact hSOK ts h1
        · have heq : ts = tMkSection r.2 "Introduction" := by
            cases h2 with
            | head => rfl
            | tail _ hcontra => cases hcontra
          rcases hk with h1 | ⟨_, a, e, hsp, hep, hae, _⟩
          · rw [h1] at htr
            exact absurd htr (by decide)
          · rw [heq]
            exact ⟨a, e, hsp, hep, hae⟩
      · rw [if_neg htr]
        exact hSOK
    refine ⟨?_, ?_, h3main⟩
    · intro s hsm
      rw [← h3main] at hsm
      obtain ⟨ts, hts, heq⟩ := List.mem_map.mp hsm
      obtain ⟨a, e, h1, h2, hle⟩ := hall ts hts
      exact ⟨a, e, by rw [← heq]; exact h1, by rw [← heq]; exact h2, hle⟩
    · rw [htraced]
      by_cases htr : tCurTruthy r.2 = true
      · rw [if_pos htr, secsConsumed_append, secsConsumed_singleton]
        show secsConsumed r.1 ++ r.2.consumed = _
        rw [hcons, List.nil_append, flattenIdx_map_fst 0 pages, List.range_eq_range']
      · rw [if_neg htr]
        have hrinit : r.2 = tInitCur := by
          rcases hk with h1 | ⟨htr2, _⟩
          · exact h1
          · exact absurd htr2 htr
        have hrc : r.2.consumed = [] := by
          rw [hrinit]
          rfl
        have hcons2 : secsConsumed r.1
            = (flattenBlocksIdxFrom 0 pages).map (fun x => x.1) := by
          rw [← List.append_nil (secsConsumed r.1), ← hrc, hcons, List.nil_append]
        rw [hcons2, flattenIdx_map_fst 0 pages, List.range_eq_range']

/-- A concrete 2-page document with a heading-sized block. -/
def sortedPages : List Page :=
  [⟨1, [sizedBlock "Title" 24, sizedBlock "alpha" 10]⟩, ⟨2, [sizedBlock "beta" 10]⟩]

/-- C4 witness: the section invariants evaluated on a concrete 2-page,
3-block document. -/
theorem claim_C4_witness :
    (List.Pairwise (· ≤ ·) (sortedPages.map Page.pageNumber) ∧
      (∀ p ∈ sortedPages, ∀ b ∈ p.blocks, pyStrip b.text ≠ "")) ∧
    ((∀ s ∈ detect_headings_and_sections sortedPages,
        ∃ a e, s.startPage = some a ∧ s.endPage = some e ∧ a ≤ e) ∧
      secsConsumed (detectSectionsTraced sortedPages)
        = List.range (flattenBlocks sortedPages).length ∧
      (detectSectionsTraced sortedPages).map tErase
        = detect_headings_and_sections sortedPages) :=
  ⟨⟨by decide, by decide⟩, claim_C4 sortedPages (by decide) (by decide)⟩

/-- C5: a per-file failure inside `batch_process` is caught, the failing
file gets no manifest entry, and every other file is still processed:
the manifest is exactly the per-file collection over the successful
files; in particular, with 3 inputs whose 2nd is corrupt the manifest
holds exactly the entries of files 1 and 3 (the Lean model is total, so
nothing propagates out of the driver). -/
theorem claim_C5 :
    (∀ (proc : String → Except String DocRecord) (outputDir : String)
        (pdfs : List String),
      batch_process proc outputDir pdfs
        = pdfs.filterMap (fun pdf =>
            match proc pdf with
            | Except.ok d =>
                some ⟨d.docId, d.filename,
                  outputDir ++ "/" ++ sanitize_filename (pathStem pdf) ++ ".json"⟩
            | Except.error _ => none)) ∧
    batch_process corruptMiddleProc "out" ["a.pdf", "b.pdf", "c.pdf"]
      = [⟨"id-a.pdf", "a.pdf", "out/a.json"⟩, ⟨"id-c.pdf", "c.pdf", "out/c.json"⟩] ∧
    (batch_process corruptMiddleProc "out" ["a.pdf", "b.pdf", "c.pdf"]).length = 2 := by
  refine ⟨?_, by decide, by decide⟩
  intro proc outputDir pdfs
  unfold batch_process
  rw [batch_foldl_eq]
  simp

/-- C6: when no block carries font-size data,
`detect_headings_and_sections` produces exactly one section per page in
page order, headed `"Page n"`, whose text is the page's block texts
joined by blank lines; the number of sections equals the page count. -/
theorem claim_C6 (pages : List Page)
    (h : ∀ p ∈ pages, ∀ b ∈ p.blocks, b.maxFontSize = none) :
    detect_headings_and_sections pages
      = pages.map (fun p =>
          (⟨"Page " ++ toString p.pageNumber,
            pyJoin "\n\n" (p.blocks.map (fun b => b.text)),
            some p.pageNumber, some p.pageNumber⟩ : Section)) ∧
    (detect_headings_and_sections pages).length = pages.length := by
  have hnil := collectFontSizes_eq_nil h
  have heq : detect_headings_and_sections pages
      = pages.map (fun p =>
          (⟨"Page " ++ toString p.pageNumber,
            pyJoin "\n\n" (p.blocks.map (fun b => b.text)),
            some p.pageNumber, some p.pageNumber⟩ : Section)) := by
    unfold detect_headings_and_sections
    rw [if_pos hnil]
  exact ⟨heq, by rw [heq, List.length_map]⟩

/-- Two pages with no font metadata anywhere. -/
def noFontPages : List Page := [⟨1, [textBlock "a"]⟩, ⟨2, [textBlock "b"]⟩]

/-- C6 witness: the fallback sectioning evaluated on a concrete 2-page
document without font metadata. -/
theorem claim_C6_witness :
    (∀ p ∈ noFontPages, ∀ b ∈ p.blocks, b.maxFontSize = none) ∧
    (detect_headings_and_sections noFontPages
      = noFontPages.map (fun p =>
          (⟨"Page " ++ toString p.pageNumber,
            pyJoin "\n\n" (p.blocks.map (fun b => b.text)),
            some p.pageNumber, some p.pageNumber⟩ : Section)) ∧
     (detect_headings_and_sections noFontPages).length = noFontPages.length) :=
  ⟨by decide, claim_C6 noFontPages (by decide)⟩

/-- C7: for the five-block document with font sizes `[10,10,10,10,24]`
the 90th-percentile heading threshold lies strictly above 10 and at most
24, so exactly the size-24 block is classified as a heading. -/
theorem claim_C7 :
    10 < percentile90 (collectFontSizes fiveBlockPages) ∧
    percentile90 (collectFontSizes fiveBlockPages) ≤ 24 ∧
    (flattenBlocks fiveBlockPages).map
        (fun pb => isHeadingBlock (percentile90 (collectFontSizes fiveBlockPages)) pb.2)
      = [false, false, false, false, true] := by
  have hc : collectFontSizes fiveBlockPages = [10, 10, 10, 10, 24] := by decide
  have hs : sortRat [(10 : ℚ), 10, 10, 10, 24] = [10, 10, 10, 10, 24] := by decide
  have hT : percentile90 (collectFontSizes fiveBlockPages) = 92 / 5 := by
    rw [hc]
    simp only [percentile90, hs]
    norm_num [List.getD]
    simp only [show Int.toNat 3 = 3 from rfl]
    norm_num
  refine ⟨by rw [hT]; norm_num, by rw [hT]; norm_num, ?_⟩
  rw [hT]
  norm_num [flattenBlocks, fiveBlockPages, sizedBlock, isHeadingBlock]

/-- C8: `find_references` returns the blank-line join of the texts of
all blocks strictly after the first block (in document order) whose
trimmed lowercased text is one of the reference markers — the marker
block excluded — and the empty string when no marker block exists
(`referencesSpec` is that description, word for word, applied to the
flattened block-text stream; the hypothesis is the normalizer's
invariant that every surviving block text is trimmed and non-empty). -/
theorem claim_C8 (pages : List Page)
    (h : ∀ p ∈ pages, ∀ b ∈ p.blocks, pyStrip b.text = b.text ∧ b.text ≠ "") :
    find_references pages
      = referencesSpec ((flattenBlocks pages).map (fun pb => pb.2.text)) := by
  simp only [find_references]
  apply refScan_eq_spec
  intro pb hpb
  obtain ⟨p, hp, hb⟩ := mem_flattenBlocks hpb
  exact h p hp pb.2 hb

/-- A document with a `"References"` marker block on page 3 and two
following blocks on page 4. -/
def refPages : List Page :=
  [⟨3, [textBlock "References"]⟩, ⟨4, [textBlock "A", textBlock "B"]⟩]

/-- C8 witness: applied to a concrete marker document; the scan yields
exactly the join of the two following blocks, and a document without a
marker yields the empty string. -/
theorem claim_C8_witness :
    (∀ p ∈ refPages, ∀ b ∈ p.blocks, pyStrip b.text = b.text ∧ b.text ≠ "") ∧
    find_references refPages
      = referencesSpec ((flattenBlocks refPages).map (fun pb => pb.2.text)) ∧
    find_references refPages = "A\n\nB" ∧
    find_references [⟨1, [textBlock "hello"]⟩] = "" :=
  ⟨by decide, claim_C8 refPages (by decide), by decide, by decide⟩

/-- C9 (amended): a block emitted by the normalizer always has at least
one span, its `font_sizes` collects one size per span with absent span
sizes contributing 0, and `max_font_size`/`avg_font_size` are the
maximum and mean of that collection — hence both are always present on
emitted blocks (they would be absent only for a spanless block, which is
dropped as empty). -/
theorem claim_C9 (rb : RawBlock) (b : Block) (h : normalizeBlock rb = some b) :
    b.fontSizes = (spanList rb).map (fun s => s.size.getD 0) ∧
    spanList rb ≠ [] ∧ b.fontSizes ≠ [] ∧
    b.maxFontSize = pyMax b.fontSizes ∧ b.avgFontSize = pyAvg b.fontSizes ∧
    b.maxFontSize.isSome = true ∧ b.avgFontSize.isSome = true := by
  unfold normalizeBlock at h
  by_cases ht : rb.btype ≠ 0
  · rw [if_pos ht] at h; exact absurd h (by simp)
  · rw [if_neg ht] at h
    by_cases hs : pyStrip (String.join ((spanList rb).map (fun s => s.text))) = ""
    · rw [if_pos hs] at h; exact absurd h (by simp)
    · rw [if_neg hs] at h
      have hb := Option.some.inj h
      have hspan : spanList rb ≠ [] := by
        intro hnil
        rw [hnil] at hs
        exact hs rfl
      obtain ⟨s0, ss, hcons⟩ := List.exists_cons_of_ne_nil hspan
      subst hb
      refine ⟨rfl, hspan, ?_, rfl, rfl, ?_, ?_⟩
      · rw [hcons]; simp
      · rw [hcons]; simp [pyMax]
      · rw [hcons]; simp [pyAvg]

/-- The block the normalizer emits for `rawSized`. -/
def sizedResult : Block := ⟨"Hello", [12], pyMax [12], pyAvg [12], ["F"]⟩

/-- C9 witness: the amended property evaluated on a concrete raw block
with a single sized span. -/
theorem claim_C9_witness :
    normalizeBlock rawSized = some sizedResult ∧
    (sizedResult.fontSizes = (spanList rawSized).map (fun s => s.size.getD 0) ∧
      spanList rawSized ≠ [] ∧ sizedResult.fontSizes ≠ [] ∧
      sizedResult.maxFontSize = pyMax sizedResult.fontSizes ∧
      sizedResult.avgFontSize = pyAvg sizedResult.fontSizes ∧
      sizedResult.maxFontSize.isSome = true ∧
      sizedResult.avgFontSize.isSome = true) :=
  ⟨rfl, claim_C9 rawSized sizedResult rfl⟩

/-- C9 counterexample: the raw block `rawNoSize` has one span carrying
no size information, yet the emitted block's `max_font_size` and
`avg_font_size` are present (`some 0`, from the collected default size
0) — the claim says they should be absent. -/
theorem claim_C9_counterexample :
    normalizeBlock rawNoSize = some ⟨"hi", [0], pyMax [0], pyAvg [0], [""]⟩ ∧
    pyMax [(0 : ℚ)] = some 0 ∧
    (pyMax [(0 : ℚ)]).isSome = true ∧ (pyAvg [(0 : ℚ)]).isSome = true ∧
    (spanList rawNoSize).all (fun s => s.size.isNone) = true :=
  ⟨rfl, rfl, rfl, rfl, by decide⟩

end Ingest
